import Mathlib

/-!
Shallow embedding of the DORA-metrics calculator (`main.go` of
kkeeth/get-DORA-4keys-metrics) and proofs about it.

Modelling conventions:
* Go `string` is modelled as `List Char` (`Str`); `strings.ToLower` as an
  ASCII-folding character map (all keywords compared by the program are ASCII).
* Go `time.Time` is modelled as `Int` (nanoseconds since an epoch);
  `time.Duration` as `Int` (`Duration`).  `t1.Before(t2)` is `t1 < t2`,
  `t1.Sub(t2)` is `t1 - t2`, and integer division of durations is Go's
  truncation toward zero, `Int.tdiv`.
* `float64` rates (`ChangeFailureRate`, `DeploymentFrequency`) are modelled
  exactly in `Rat`; the claims under study concern the value of the defining
  formula, not IEEE rounding.
* Network fetches are modelled by oracles: a page function for the paginated
  PR search and a `FetchEnv` giving each PR's commits/reviews fetch result
  (`none` = the HTTP call failed).
* Go maps keyed by lower-cased login are modelled as association lists whose
  operations (`lookupM`, `updateMember`, `setEntry`) mirror the map reads and
  writes in the source; iteration order over a map is the list order, a
  deterministic refinement of Go's unspecified order (the folds performed by
  the program are per-key commutative, so per-key results are order-free).
-/

abbrev Str := List Char

abbrev Duration := Int

/-- ASCII case folding, modelling `strings.ToLower` on the ASCII strings the
program compares. -/
def lowerStr (s : Str) : Str := s.map Char.toLower

/-- Go struct `PullRequest` (main.go:30-45), fields the core reads. -/
structure PullRequest where
  number : Nat
  title : Str
  state : Str
  createdAt : Int
  mergedAt : Option Int
  userLogin : Str
  headRef : Str
  labels : List Str
deriving DecidableEq

/-- Go struct `Review` (main.go:47-54). -/
structure Review where
  id : Nat
  userLogin : Str
  state : Str
  submittedAt : Int
deriving DecidableEq

/-- Go struct `PRCommit` (main.go:66-73). -/
structure PRCommit where
  sha : Str
  authorDate : Int
deriving DecidableEq

/-- Go struct `Commit` (main.go:56-64), used for trunk history. -/
structure Commit where
  sha : Str
  message : Str
  authorDate : Int
deriving DecidableEq

/-- Go struct `MemberMetrics` (main.go:91-101). -/
structure MemberMetrics where
  username : Str
  prsMerged : Nat
  avgLeadTime : Duration
  medianLeadTime : Duration
  avgTimeToFirstReview : Duration
  medianTimeToFirstReview : Duration
  failurePRs : Nat
  leadTimes : List Duration
  firstReviewTimes : List Duration
deriving DecidableEq

/-- Go struct `Metrics` (main.go:75-89); the member map is an association list
keyed by lower-cased login. -/
structure Metrics where
  repo : Str
  days : Int
  deploymentFrequency : Rat
  deploymentsTotal : Nat
  leadTimeForChanges : Duration
  leadTimeMedian : Duration
  changeFailureRate : Rat
  failureCount : Nat
  timeToFirstReview : Duration
  timeToFirstReviewMedian : Duration
  prsAnalyzed : Nat
  memberMetrics : List (Str × MemberMetrics)
deriving DecidableEq

/-- The zero value of `MemberMetrics` (Go zero-initialised struct). -/
def emptyMember : MemberMetrics :=
  { username := [], prsMerged := 0, avgLeadTime := 0, medianLeadTime := 0,
    avgTimeToFirstReview := 0, medianTimeToFirstReview := 0, failurePRs := 0,
    leadTimes := [], firstReviewTimes := [] }

/-- Model of `&MemberMetrics{Username: login}` (main.go:338-340, 355). -/
def defaultMember (login : Str) : MemberMetrics :=
  { emptyMember with username := login }

/-- The ascending sort of a copy of the slice performed by `median`
(main.go:273-277); any correct sort produces this list, since a sorted
permutation of a list of integers is unique. -/
def sortDurations (l : List Duration) : List Duration :=
  List.insertionSort (fun a b : Duration => a ≤ b) l

/-- Function `median` (main.go:269-283): sort a copy ascending, take the middle
element for odd length, the truncated mean of the two middle elements for
even length, `0` when empty. -/
def median (durations : List Duration) : Duration :=
  if durations.length = 0 then 0
  else if (sortDurations durations).length % 2 = 0 then
    Int.tdiv ((sortDurations durations).getD ((sortDurations durations).length / 2 - 1) 0
      + (sortDurations durations).getD ((sortDurations durations).length / 2) 0) 2
  else (sortDurations durations).getD ((sortDurations durations).length / 2) 0

/-- Function `average` (main.go:285-294): running total over the slice, then
duration division (truncation toward zero) by the length; `0` when empty. -/
def average (durations : List Duration) : Duration :=
  if durations.length = 0 then 0
  else Int.tdiv (durations.foldl (fun acc d => acc + d) 0) durations.length

theorem average_foldl_eq_sum (l : List Duration) (a : Duration) :
    l.foldl (fun acc d => acc + d) a = a + l.sum := by
  induction l generalizing a with
  | nil => simp
  | cons d rest ih => simp [List.foldl_cons, ih (a + d), List.sum_cons]; ring

theorem sortDurations_perm (l : List Duration) : (sortDurations l).Perm l :=
  List.perm_insertionSort _ l

theorem sortDurations_sorted (l : List Duration) : (sortDurations l).Sorted (· ≤ ·) :=
  List.sorted_insertionSort _ l

theorem sortDurations_length (l : List Duration) : (sortDurations l).length = l.length :=
  (sortDurations_perm l).length_eq

theorem sortDurations_congr_perm {l l' : List Duration} (h : l.Perm l') :
    sortDurations l = sortDurations l' :=
  List.eq_of_perm_of_sorted
    ((sortDurations_perm l).trans (h.trans (sortDurations_perm l').symm))
    (sortDurations_sorted l) (sortDurations_sorted l')

theorem median_perm {l l' : List Duration} (h : l.Perm l') : median l = median l' := by
  unfold median
  rw [sortDurations_congr_perm h, h.length_eq]

/-- C7: `median` sorts a copy (never mutates: the result is invariant under
permutation of the input), returns the middle element of the sorted sequence
for odd counts, the truncated mean of the two middle elements for even
counts, and `0` on the empty collection. -/
theorem median_sorts_copy_middle (l : List Duration) :
    median ([] : List Duration) = 0 ∧
    (∀ l' : List Duration, l.Perm l' → median l = median l') ∧
    (∃ s : List Duration, l.Perm s ∧ s.Sorted (· ≤ ·) ∧
      (l.length % 2 = 1 → median l = s.getD (l.length / 2) 0) ∧
      (l.length % 2 = 0 → l ≠ [] → median l =
        Int.tdiv (s.getD (l.length / 2 - 1) 0 + s.getD (l.length / 2) 0) 2)) := by
  refine ⟨rfl, fun l' h => median_perm h, ?_⟩
  refine ⟨sortDurations l, (sortDurations_perm l).symm, sortDurations_sorted l, ?_, ?_⟩
  · intro hodd
    have hlen : l.length ≠ 0 := by intro h0; rw [h0] at hodd; simp at hodd
    unfold median
    rw [if_neg hlen, sortDurations_length, if_neg (by omega)]
  · intro heven hne
    have hlen : l.length ≠ 0 := by
      intro h0; exact hne (List.length_eq_zero.mp h0)
    unfold median
    rw [if_neg hlen, sortDurations_length, if_pos heven]

/-- Witness for C7 at a concrete collection. -/
theorem median_sorts_copy_middle_witness :
    median [(3 : Int), 1, 2] = median [2, 1, 3] :=
  (median_sorts_copy_middle [3, 1, 2]).2.1 [2, 1, 3] (by decide)

/-- C8: `average` of a non-empty collection is the (truncated) quotient of
the sum of the durations by their count, and `average` of the empty
collection is `0`. -/
theorem average_eq_sum_div_count (l : List Duration) :
    average ([] : List Duration) = 0 ∧
    (l ≠ [] → average l = Int.tdiv l.sum l.length) := by
  refine ⟨rfl, fun hne => ?_⟩
  have hlen : l.length ≠ 0 := by
    intro h0; exact hne (List.length_eq_zero.mp h0)
  unfold average
  rw [if_neg hlen, average_foldl_eq_sum, zero_add]

/-- Witness for C8 at a concrete collection. -/
theorem average_eq_sum_div_count_witness :
    average [(2 : Int), 5] = Int.tdiv ([(2 : Int), 5]).sum ([(2 : Int), 5]).length :=
  (average_eq_sum_div_count [2, 5]).2 (by decide)

def hotfixKw : Str := "hotfix".toList

def bugfixKw : Str := "bugfix".toList

def bugKw : Str := "bug".toList

def revertKw : Str := "revert".toList

/-- Model of `strings.Contains(haystack, needle)`: `needle` occurs as a contiguous
substring of `haystack`. -/
def containsSub : Str → Str → Bool
  | [], needle => needle.isEmpty
  | c :: rest, needle => needle.isPrefixOf (c :: rest) || containsSub rest needle

theorem isPrefixOf_exists {n s : Str} : n.isPrefixOf s = true ↔ ∃ t, n ++ t = s := by
  induction n generalizing s with
  | nil => simp [List.isPrefixOf]
  | cons x n' ih =>
    cases s with
    | nil => simp [List.isPrefixOf]
    | cons y s' => simp [List.isPrefixOf, ih]

/-- Soundness: `containsSub` really is the substring relation. -/
theorem containsSub_spec {s n : Str} : containsSub s n = true ↔ ∃ p q, p ++ n ++ q = s := by
  induction s with
  | nil =>
    simp only [containsSub, List.isEmpty_iff]
    constructor
    · rintro rfl; exact ⟨[], [], rfl⟩
    · rintro ⟨p, q, h⟩
      rcases List.append_eq_nil.mp h with ⟨h1, h2⟩
      exact (List.append_eq_nil.mp h1).2
  | cons c cs ih =>
    simp only [containsSub, Bool.or_eq_true, isPrefixOf_exists, ih]
    constructor
    · rintro (⟨t, ht⟩ | ⟨p, q, h⟩)
      · exact ⟨[], t, by simpa using ht⟩
      · exact ⟨c :: p, q, by simp [h]⟩
    · rintro ⟨p, q, h⟩
      cases p with
      | nil => exact Or.inl ⟨q, by simpa using h⟩
      | cons c' p' =>
        simp only [List.cons_append, List.cons.injEq] at h
        exact Or.inr ⟨p', q, h.2⟩

theorem isPrefixOf_trans {a b s : Str} (h1 : a.isPrefixOf b = true)
    (h2 : b.isPrefixOf s = true) : a.isPrefixOf s = true := by
  rcases isPrefixOf_exists.mp h1 with ⟨t1, ht1⟩
  rcases isPrefixOf_exists.mp h2 with ⟨t2, ht2⟩
  exact isPrefixOf_exists.mpr ⟨t1 ++ t2, by rw [← ht2, ← ht1]; simp⟩

theorem containsSub_of_isPrefixOf {n s : Str} (h : n.isPrefixOf s = true) :
    containsSub s n = true := by
  cases s with
  | nil =>
    cases n with
    | nil => rfl
    | cons x n' => simp [List.isPrefixOf] at h
  | cons c rest => simp [containsSub, h]

/-- A string containing `bugfix` contains `bug`. -/
theorem containsSub_bug_of_bugfix {s : Str} (h : containsSub s bugfixKw = true) :
    containsSub s bugKw = true := by
  induction s with
  | nil => simp [containsSub, bugfixKw] at h
  | cons c rest ih =>
    simp only [containsSub, Bool.or_eq_true] at h ⊢
    rcases h with h | h
    · exact Or.inl (isPrefixOf_trans (by decide) h)
    · exact Or.inr (ih h)

/-- Function `isFailurePR` (main.go:244-262): flag a PR when its lower-cased head
branch has `hotfix`/`bugfix` as a prefix or substring, or some lower-cased
label equals `bug`/`hotfix`/`bugfix` or contains `bug`/`hotfix`. -/
def isFailurePR (pr : PullRequest) : Bool :=
  if hotfixKw.isPrefixOf (lowerStr pr.headRef) || bugfixKw.isPrefixOf (lowerStr pr.headRef)
      || containsSub (lowerStr pr.headRef) hotfixKw
      || containsSub (lowerStr pr.headRef) bugfixKw then
    true
  else
    pr.labels.any fun label =>
      decide (lowerStr label = bugKw) || decide (lowerStr label = hotfixKw)
        || decide (lowerStr label = bugfixKw) || containsSub (lowerStr label) bugKw
        || containsSub (lowerStr label) hotfixKw

/-- Function `isRevertCommit` (main.go:264-267). -/
def isRevertCommit (c : Commit) : Bool :=
  revertKw.isPrefixOf (lowerStr c.message)

/-- The failure condition as the claim under study words it: head branch
contains `hotfix` or `bugfix` case-insensitively, or some label equals or
contains `bug`, `hotfix`, or `bugfix` case-insensitively. -/
def claimFailurePR (pr : PullRequest) : Bool :=
  containsSub (lowerStr pr.headRef) hotfixKw || containsSub (lowerStr pr.headRef) bugfixKw
    || pr.labels.any fun label =>
      decide (lowerStr label = bugKw) || decide (lowerStr label = hotfixKw)
        || decide (lowerStr label = bugfixKw) || containsSub (lowerStr label) bugKw
        || containsSub (lowerStr label) hotfixKw || containsSub (lowerStr label) bugfixKw

/-- C5: the per-PR failure classifier holds exactly when the head branch
contains `hotfix` or `bugfix` (case-insensitive substring) or some label
name equals or contains `bug`, `hotfix`, or `bugfix` (case-insensitive); the
redundant prefix tests in the code and the missing `bugfix`-substring label
test are both absorbed by the substring tests. -/
theorem isFailurePR_iff_claim (pr : PullRequest) : isFailurePR pr = claimFailurePR pr := by
  rw [Bool.eq_iff_iff]
  unfold isFailurePR claimFailurePR
  by_cases hbr : (hotfixKw.isPrefixOf (lowerStr pr.headRef)
      || bugfixKw.isPrefixOf (lowerStr pr.headRef)
      || containsSub (lowerStr pr.headRef) hotfixKw
      || containsSub (lowerStr pr.headRef) bugfixKw) = true
  · rw [if_pos hbr]
    simp only [Bool.or_eq_true] at hbr ⊢
    constructor
    · intro _
      refine Or.inl ?_
      rcases hbr with ((h | h) | h) | h
      · exact Or.inl (containsSub_of_isPrefixOf h)
      · exact Or.inr (containsSub_of_isPrefixOf h)
      · exact Or.inl h
      · exact Or.inr h
    · intro _; trivial
  · rw [if_neg hbr]
    simp only [Bool.or_eq_true, not_or] at hbr
    obtain ⟨⟨⟨-, -⟩, hc1⟩, hc2⟩ := hbr
    simp only [Bool.or_eq_true, List.any_eq_true]
    constructor
    · rintro ⟨label, hmem, hcond⟩
      exact Or.inr ⟨label, hmem, Or.inl hcond⟩
    · rintro ((h | h) | ⟨label, hmem, hcond⟩)
      · exact absurd h hc1
      · exact absurd h hc2
      · refine ⟨label, hmem, ?_⟩
        rcases hcond with h | h
        · exact h
        · exact Or.inl (Or.inr (containsSub_bug_of_bugfix h))

/-- C10: the failure classifier reads only the head branch name and the
label set, so two pull requests that agree on those fields (in particular,
two that differ only in `title`) are classified identically. -/
theorem isFailurePR_title_independent (pr1 pr2 : PullRequest)
    (hb : pr1.headRef = pr2.headRef) (hl : pr1.labels = pr2.labels) :
    isFailurePR pr1 = isFailurePR pr2 := by
  unfold isFailurePR
  rw [hb, hl]

/-- Witness for C10: two concrete PRs identical except in their titles. -/
theorem isFailurePR_title_independent_witness :
    isFailurePR
      { number := 1, title := "fix typo".toList, state := "closed".toList, createdAt := 0,
        mergedAt := some 10, userLogin := "alice".toList, headRef := "feature/x".toList,
        labels := [] }
    = isFailurePR
      { number := 1, title := "other title".toList, state := "closed".toList, createdAt := 0,
        mergedAt := some 10, userLogin := "alice".toList, headRef := "feature/x".toList,
        labels := [] } :=
  isFailurePR_title_independent _ _ rfl rfl

/-- Merge time exists and precedes the requested window's start
(`pr.MergedAt.Before(since)`, main.go:170). -/
def oldPR (since : Int) (pr : PullRequest) : Bool :=
  match pr.mergedAt with
  | none => false
  | some m => decide (m < since)

/-- The body of the scan over one fetched page (main.go:165-182): keep
in-window merged PRs by the (lower-cased) member allow-list, and record
whether some merged item predates the window (`foundOld`). -/
def scanPage (since untl : Int) (memberSet : List Str) (useFilter : Bool)
    (prs : List PullRequest) : List PullRequest × Bool :=
  prs.foldl
    (fun acc pr =>
      match pr.mergedAt with
      | none => acc
      | some m =>
        if m < since then (acc.1, true)
        else if untl < m then acc
        else if useFilter && !(memberSet.contains (lowerStr pr.userLogin)) then acc
        else (acc.1 ++ [pr], acc.2))
    ([], false)

/-- The pagination loop of `GetMergedPRs` (main.go:152-188), driven by a
page oracle (`pages p` is the body of the response for page `p`) and fuel
(the loop has no intrinsic bound).  Returns the accumulated PRs and the
list of page numbers requested. -/
def getMergedPRsAux (pages : Nat → List PullRequest) (since untl : Int)
    (members : List Str) : Nat → Nat → List PullRequest → List PullRequest × List Nat
  | 0, _, acc => (acc, [])
  | fuel + 1, page, acc =>
    if (pages page).length = 0 then (acc, [page])
    else if (scanPage since untl (members.map lowerStr) (!members.isEmpty) (pages page)).2
        || decide ((pages page).length < 100) then
      (acc ++ (scanPage since untl (members.map lowerStr) (!members.isEmpty) (pages page)).1,
       [page])
    else
      ((getMergedPRsAux pages since untl members fuel (page + 1)
          (acc ++ (scanPage since untl (members.map lowerStr) (!members.isEmpty) (pages page)).1)).1,
       page :: (getMergedPRsAux pages since untl members fuel (page + 1)
          (acc ++ (scanPage since untl (members.map lowerStr) (!members.isEmpty) (pages page)).1)).2)

/-- Function `GetMergedPRs` (main.go:142-191): paginate from page 1 with page size
100; the second component is the sequence of requested page numbers. -/
def GetMergedPRs (pages : Nat → List PullRequest) (since untl : Int)
    (members : List Str) (fuel : Nat) : List PullRequest × List Nat :=
  getMergedPRsAux pages since untl members fuel 1 []

/-- The stop rule the claim describes: a page stops pagination when it has
fewer items than the page size (100) or contains an item merged before the
window's start. -/
def pageStops (since : Int) (prs : List PullRequest) : Bool :=
  decide (prs.length < 100) || prs.any (oldPR since)

theorem scanPage_foundOld (since untl : Int) (memberSet : List Str) (useFilter : Bool)
    (prs : List PullRequest) :
    (scanPage since untl memberSet useFilter prs).2 = prs.any (oldPR since) := by
  unfold scanPage
  suffices h : ∀ (l : List PullRequest) (acc : List PullRequest × Bool),
      (l.foldl
        (fun acc pr =>
          match pr.mergedAt with
          | none => acc
          | some m =>
            if m < since then (acc.1, true)
            else if untl < m then acc
            else if useFilter && !(memberSet.contains (lowerStr pr.userLogin)) then acc
            else (acc.1 ++ [pr], acc.2))
        acc).2 = (acc.2 || l.any (oldPR since)) by
    rw [h prs ([], false)]; simp
  intro l
  induction l with
  | nil => intro acc; simp
  | cons pr rest ih =>
    intro acc
    simp only [List.foldl_cons, List.any_cons]
    cases hm : pr.mergedAt with
    | none => rw [ih]; simp [oldPR, hm]
    | some m =>
      rw [ih]
      by_cases h1 : m < since
      · simp [oldPR, hm, h1]
      · by_cases h2 : untl < m
        · simp [oldPR, hm, h1, h2]
        · by_cases h3 : useFilter = true ∧ lowerStr pr.userLogin ∉ memberSet
          · simp [oldPR, hm, h1, h2, h3]
          · simp [oldPR, hm, h1, h2, h3]

theorem getMergedPRsAux_requests (pages : Nat → List PullRequest) (since untl : Int)
    (members : List Str) :
    ∀ (n p fuel : Nat) (acc : List PullRequest), n < fuel →
      (∀ j, j < n → pageStops since (pages (p + j)) = false) →
      pageStops since (pages (p + n)) = true →
      (getMergedPRsAux pages since untl members fuel p acc).2 = List.range' p (n + 1) := by
  intro n
  induction n with
  | zero =>
    intro p fuel acc hfuel _ hstop
    obtain ⟨f, rfl⟩ : ∃ f, fuel = f + 1 := ⟨fuel - 1, by omega⟩
    rw [Nat.add_zero] at hstop
    unfold getMergedPRsAux
    by_cases h0 : (pages p).length = 0
    · rw [if_pos h0]
      simp [List.range']
    · rw [if_neg h0]
      have hcond : ((scanPage since untl (members.map lowerStr) (!members.isEmpty) (pages p)).2
          || decide ((pages p).length < 100)) = true := by
        rw [scanPage_foundOld]
        simp only [pageStops, Bool.or_eq_true] at hstop ⊢
        tauto
      rw [if_pos hcond]
      simp [List.range']
  | succ n ih =>
    intro p fuel acc hfuel hmin hstop
    obtain ⟨f, rfl⟩ : ∃ f, fuel = f + 1 := ⟨fuel - 1, by omega⟩
    have hnostop : pageStops since (pages p) = false := by
      have := hmin 0 (by omega)
      simpa using this
    have h0 : (pages p).length ≠ 0 := by
      intro h0
      simp only [pageStops, h0, Bool.or_eq_true] at hnostop
      simp at hnostop
    have hcond : ((scanPage since untl (members.map lowerStr) (!members.isEmpty) (pages p)).2
        || decide ((pages p).length < 100)) = false := by
      rw [scanPage_foundOld]
      simp only [pageStops, Bool.or_eq_false_iff] at hnostop ⊢
      tauto
    unfold getMergedPRsAux
    rw [if_neg h0, if_neg (by rw [hcond]; exact Bool.false_ne_true)]
    have hrec := ih (p + 1) f
      (acc ++ (scanPage since untl (members.map lowerStr) (!members.isEmpty) (pages p)).1)
      (by omega)
      (fun j hj => by
        have := hmin (j + 1) (by omega)
        simpa [Nat.add_assoc, Nat.add_comm 1 j] using this)
      (by
        have : p + 1 + n = p + (n + 1) := by omega
        rw [this]; exact hstop)
    rw [hrec]
    simp [List.range']

/-- C4: pagination of the merged-PR search stops at the first page that has
fewer items than the page size or contains an item merged before the
window's start (whichever page comes first), and requests no page after it:
the requested pages are exactly `1..k` where `k` is that first stopping
page. -/
theorem getMergedPRs_stops_at_first_stop_page (pages : Nat → List PullRequest)
    (since untl : Int) (members : List Str) (k fuel : Nat) (hk : 1 ≤ k)
    (hstop : pageStops since (pages k) = true)
    (hmin : ∀ q, 1 ≤ q → q < k → pageStops since (pages q) = false)
    (hfuel : k ≤ fuel) :
    (GetMergedPRs pages since untl members fuel).2 = List.range' 1 k := by
  have := getMergedPRsAux_requests pages since untl members (k - 1) 1 fuel []
    (by omega)
    (fun j hj => hmin (1 + j) (by omega) (by omega))
    (by
      have : 1 + (k - 1) = k := by omega
      rw [this]; exact hstop)
  unfold GetMergedPRs
  rw [this]
  congr 1
  omega

/-- Witness for C4: a first page of 100 in-window items followed by an
empty second page makes the search request exactly pages 1 and 2. -/
theorem getMergedPRs_stops_at_first_stop_page_witness :
    (GetMergedPRs
      (fun p => if p = 1 then
        List.replicate 100
          { number := 7, title := [], state := "closed".toList, createdAt := 0,
            mergedAt := some 5, userLogin := "alice".toList, headRef := [],
            labels := [] }
        else [])
      (0 : Int) (10 : Int) [] 3).2 = List.range' 1 2 :=
  getMergedPRs_stops_at_first_stop_page _ 0 10 [] 2 3 (by omega)
    (by decide)
    (fun q h1 h2 => by
      have hq : q = 1 := by omega
      subst hq
      decide)
    (by omega)

/-- Per-PR sub-resource fetch oracles: the result of `GetPRCommits` and
`GetPRReviews` (main.go:193-213) keyed by PR number; `none` models a failed
HTTP call. -/
structure FetchEnv where
  commits : Nat → Option (List PRCommit)
  reviews : Nat → Option (List Review)

/-- Go map read `m[key]` on the member map: first entry with this key. -/
def lookupM : List (Str × MemberMetrics) → Str → Option MemberMetrics
  | [], _ => none
  | (k, mm) :: rest, key => if k = key then some mm else lookupM rest key

/-- Go map write `m[key] = mm`: replace the entry or append a new one. -/
def setEntry : List (Str × MemberMetrics) → Str → MemberMetrics → List (Str × MemberMetrics)
  | [], key, mm => [(key, mm)]
  | (k, v) :: rest, key, mm =>
    if k = key then (k, mm) :: rest else (k, v) :: setEntry rest key mm

/-- Read-modify-write of one member entry: look the key up, creating
`&MemberMetrics{Username: login}` when absent (main.go:352-357), then apply
the mutations `f` performed on the pointed-to struct. -/
def updateMember : List (Str × MemberMetrics) → Str → Str → (MemberMetrics → MemberMetrics)
    → List (Str × MemberMetrics)
  | [], key, login, f => [(key, f (defaultMember login))]
  | (k, mm) :: rest, key, login, f =>
    if k = key then (k, f mm) :: rest else (k, mm) :: updateMember rest key login f

/-- Member-map initialisation from the configured allow-list
(main.go:336-341). -/
def initMembers (cfgMembers : List Str) : List (Str × MemberMetrics) :=
  cfgMembers.foldl (fun m member => setEntry m (lowerStr member) (defaultMember member)) []

/-- Earliest commit author date of a PR's commit list (main.go:368-373):
start from the first element and keep any strictly earlier date. -/
def firstCommitTime (d : Int) (cs : List PRCommit) : Int :=
  cs.foldl (fun acc c => if c.authorDate < acc then c.authorDate else acc) d

/-- Lead-time sample of a PR given its fetched commits (main.go:367-377):
present only when the commit list is non-empty and the PR has a merge time;
`merge time - earliest commit author date`. -/
def leadSampleOf (pr : PullRequest) (cs : List PRCommit) : Option Duration :=
  match cs, pr.mergedAt with
  | [], _ => none
  | _, none => none
  | c0 :: rest, some m => some (m - firstCommitTime c0.authorDate (c0 :: rest))

/-- The earliest submission time among reviews whose (lower-cased) reviewer
differs from the (lower-cased) PR author (main.go:384-394). -/
def firstNonAuthorReview (author : Str) (reviews : List Review) : Option Int :=
  reviews.foldl
    (fun acc r =>
      if lowerStr r.userLogin = lowerStr author then acc
      else
        match acc with
        | none => some r.submittedAt
        | some t => if r.submittedAt < t then some r.submittedAt else some t)
    none

/-- Time-to-first-review sample of a PR given its fetched reviews
(main.go:383-399): present only when some non-author review exists;
`earliest non-author review submission - PR creation`. -/
def reviewSampleOf (pr : PullRequest) (reviews : List Review) : Option Duration :=
  if reviews.length = 0 then none
  else (firstNonAuthorReview pr.userLogin reviews).map (fun t => t - pr.createdAt)

/-- A PR's contribution to the lead-time collections: `none` when the
commits fetch failed (the PR is skipped by `continue`, main.go:361-365). -/
def leadContrib (env : FetchEnv) (pr : PullRequest) : Option Duration :=
  match env.commits pr.number with
  | none => none
  | some cs => leadSampleOf pr cs

/-- A PR's contribution to the first-review collections: `none` when the
commits fetch failed (skipped before reviews are fetched) or the reviews
fetch failed (main.go:380-382). -/
def reviewContrib (env : FetchEnv) (pr : PullRequest) : Option Duration :=
  match env.commits pr.number with
  | none => none
  | some _ =>
    match env.reviews pr.number with
    | none => none
    | some rvs => reviewSampleOf pr rvs

/-- Whether a PR increments the failure counters: classification runs only
for PRs whose commits fetch succeeded (main.go:402-406 after the
`continue`). -/
def failContrib (env : FetchEnv) (pr : PullRequest) : Bool :=
  (env.commits pr.number).isSome && isFailurePR pr

/-- The mutations applied to the PR author's member entry during one loop
iteration (main.go:352-406): `PRsMerged++` always; samples and failure
count only when the commits fetch succeeded. -/
def memberFold (env : FetchEnv) (pr : PullRequest) (mm : MemberMetrics) : MemberMetrics :=
  match env.commits pr.number with
  | none => { mm with prsMerged := mm.prsMerged + 1 }
  | some cs =>
    { mm with
      prsMerged := mm.prsMerged + 1,
      leadTimes := mm.leadTimes ++ (leadSampleOf pr cs).toList,
      firstReviewTimes := mm.firstReviewTimes ++
        (match env.reviews pr.number with
         | none => none
         | some rvs => reviewSampleOf pr rvs).toList,
      failurePRs := mm.failurePRs + (if isFailurePR pr then 1 else 0) }

/-- The accumulators of `calculateMetrics`' PR loop: the member map and the
repo-level `leadTimes`, `firstReviewTimes`, `failureCount`
(main.go:343-345). -/
structure AggState where
  members : List (Str × MemberMetrics)
  leadTimes : List Duration
  firstReviewTimes : List Duration
  failureCount : Nat

/-- One iteration of the PR loop (main.go:347-407). -/
def processPR (env : FetchEnv) (st : AggState) (pr : PullRequest) : AggState :=
  { members := updateMember st.members (lowerStr pr.userLogin) pr.userLogin (memberFold env pr),
    leadTimes := st.leadTimes ++ (leadContrib env pr).toList,
    firstReviewTimes := st.firstReviewTimes ++ (reviewContrib env pr).toList,
    failureCount := st.failureCount + (if failContrib env pr then 1 else 0) }

/-- The loop state after processing all PRs of a repository. -/
def aggState (env : FetchEnv) (cfgMembers : List Str) (prs : List PullRequest) : AggState :=
  prs.foldl (processPR env)
    { members := initMembers cfgMembers, leadTimes := [], firstReviewTimes := [],
      failureCount := 0 }

/-- Snapshot finalisation of one member (main.go:424-429). -/
def finalizeMember (mm : MemberMetrics) : MemberMetrics :=
  { mm with
    avgLeadTime := average mm.leadTimes,
    medianLeadTime := median mm.leadTimes,
    avgTimeToFirstReview := average mm.firstReviewTimes,
    medianTimeToFirstReview := median mm.firstReviewTimes }

/-- Function `calculateMetrics` (main.go:296-432) after its fetches: `prs` is the
merged-PR list returned by `GetMergedPRs`, `trunk` the trunk commit list
used for revert counting (empty when both branch fetches failed), `env` the
per-PR sub-resource oracles, and `days` the period length in days computed
by the date glue. -/
def calculateMetrics (env : FetchEnv) (cfgMembers : List Str) (repo : Str)
    (prs : List PullRequest) (trunk : List Commit) (days : Int) : Metrics :=
  { repo := repo,
    days := days,
    deploymentsTotal := prs.length,
    deploymentFrequency := (prs.length : Rat) / (days : Rat),
    leadTimeForChanges := average (aggState env cfgMembers prs).leadTimes,
    leadTimeMedian := median (aggState env cfgMembers prs).leadTimes,
    failureCount := (aggState env cfgMembers prs).failureCount + trunk.countP isRevertCommit,
    changeFailureRate :=
      if 0 < prs.length then
        (((aggState env cfgMembers prs).failureCount + trunk.countP isRevertCommit : Rat)
          / (prs.length : Rat)) * 100
      else 0,
    timeToFirstReview := average (aggState env cfgMembers prs).firstReviewTimes,
    timeToFirstReviewMedian := median (aggState env cfgMembers prs).firstReviewTimes,
    prsAnalyzed := prs.length,
    memberMetrics := (aggState env cfgMembers prs).members.map
      (fun p => (p.1, finalizeMember p.2)) }

theorem aggFold_leadTimes (env : FetchEnv) (prs : List PullRequest) :
    ∀ st : AggState, (prs.foldl (processPR env) st).leadTimes
      = st.leadTimes ++ prs.filterMap (leadContrib env) := by
  induction prs with
  | nil => intro st; simp
  | cons pr rest ih =>
    intro st
    rw [List.foldl_cons, ih]
    cases h : leadContrib env pr with
    | none => simp [processPR, h]
    | some d => simp [processPR, h]

theorem aggFold_firstReviewTimes (env : FetchEnv) (prs : List PullRequest) :
    ∀ st : AggState, (prs.foldl (processPR env) st).firstReviewTimes
      = st.firstReviewTimes ++ prs.filterMap (reviewContrib env) := by
  induction prs with
  | nil => intro st; simp
  | cons pr rest ih =>
    intro st
    rw [List.foldl_cons, ih]
    cases h : reviewContrib env pr with
    | none => simp [processPR, h]
    | some d => simp [processPR, h]

theorem aggFold_failureCount (env : FetchEnv) (prs : List PullRequest) :
    ∀ st : AggState, (prs.foldl (processPR env) st).failureCount
      = st.failureCount + prs.countP (failContrib env) := by
  induction prs with
  | nil => intro st; simp
  | cons pr rest ih =>
    intro st
    rw [List.foldl_cons, ih]
    cases h : failContrib env pr with
    | false => simp [processPR, List.countP_cons, h]
    | true => simp [processPR, List.countP_cons, h]; omega

theorem lookupM_updateMember (M : List (Str × MemberMetrics)) (key login : Str)
    (f : MemberMetrics → MemberMetrics) (k : Str) :
    lookupM (updateMember M key login f) k =
      if k = key then some (f ((lookupM M key).getD (defaultMember login)))
      else lookupM M k := by
  induction M with
  | nil =>
    simp only [updateMember, lookupM]
    by_cases hk : k = key
    · subst hk; simp
    · rw [if_neg (Ne.symm hk), if_neg hk]
  | cons hd rest ih =>
    obtain ⟨k0, mm0⟩ := hd
    by_cases hk0 : k0 = key
    · subst hk0
      simp only [updateMember, if_pos rfl, lookupM]
      by_cases hk : k0 = k
      · subst hk; simp
      · simp [hk, Ne.symm hk]
    · simp only [updateMember, if_neg hk0, lookupM]
      rw [ih]
      by_cases hk : k0 = k
      · subst hk
        simp [hk0, Ne.symm hk0]
      · simp [hk, hk0]

theorem lookupM_processPR (env : FetchEnv) (st : AggState) (pr : PullRequest) (k : Str) :
    lookupM (processPR env st pr).members k =
      if k = lowerStr pr.userLogin then
        some (memberFold env pr
          ((lookupM st.members (lowerStr pr.userLogin)).getD (defaultMember pr.userLogin)))
      else lookupM st.members k := by
  have : (processPR env st pr).members
      = updateMember st.members (lowerStr pr.userLogin) pr.userLogin (memberFold env pr) := rfl
  rw [this, lookupM_updateMember]

theorem foldl_lookup_congr (env : FetchEnv) (l : List PullRequest) :
    ∀ (stA stB : AggState) (k : Str),
      lookupM stA.members k = lookupM stB.members k →
      lookupM (l.foldl (processPR env) stA).members k
        = lookupM (l.foldl (processPR env) stB).members k := by
  induction l with
  | nil => intro _ _ _ h; exact h
  | cons pr rest ih =>
    intro stA stB k h
    rw [List.foldl_cons, List.foldl_cons]
    apply ih
    rw [lookupM_processPR, lookupM_processPR]
    by_cases hk : k = lowerStr pr.userLogin
    · subst hk; rw [h]
    · rw [if_neg hk, if_neg hk]; exact h

theorem lookupM_map_finalize (M : List (Str × MemberMetrics)) (k : Str) :
    lookupM (M.map (fun p => (p.1, finalizeMember p.2))) k
      = (lookupM M k).map finalizeMember := by
  induction M with
  | nil => simp [lookupM]
  | cons hd rest ih =>
    obtain ⟨k0, mm0⟩ := hd
    by_cases hk : k0 = k
    · subst hk; simp [lookupM]
    · simp [lookupM, hk, ih]

/-- Total of `PRsMerged` over all member-map entries. -/
def sumPRsMerged (M : List (Str × MemberMetrics)) : Nat :=
  (M.map (fun p => p.2.prsMerged)).sum

theorem memberFold_prsMerged (env : FetchEnv) (pr : PullRequest) (mm : MemberMetrics) :
    (memberFold env pr mm).prsMerged = mm.prsMerged + 1 := by
  cases h : env.commits pr.number <;> simp [memberFold, h]

theorem sumPRsMerged_updateMember (M : List (Str × MemberMetrics)) (key login : Str)
    (f : MemberMetrics → MemberMetrics) (hf : ∀ mm, (f mm).prsMerged = mm.prsMerged + 1) :
    sumPRsMerged (updateMember M key login f) = sumPRsMerged M + 1 := by
  induction M with
  | nil => simp [updateMember, sumPRsMerged, hf, defaultMember, emptyMember]
  | cons hd rest ih =>
    obtain ⟨k0, mm0⟩ := hd
    by_cases hk : k0 = key
    · simp only [updateMember, if_pos hk, sumPRsMerged, List.map_cons, List.sum_cons]
      rw [hf mm0]
      omega
    · simp only [updateMember, if_neg hk, sumPRsMerged, List.map_cons, List.sum_cons]
      simp only [sumPRsMerged] at ih
      omega

theorem sumPRsMerged_fold (env : FetchEnv) (prs : List PullRequest) :
    ∀ st : AggState, sumPRsMerged ((prs.foldl (processPR env) st).members)
      = sumPRsMerged st.members + prs.length := by
  induction prs with
  | nil => intro st; simp
  | cons pr rest ih =>
    intro st
    rw [List.foldl_cons, ih]
    have hstep : sumPRsMerged ((processPR env st pr).members) = sumPRsMerged st.members + 1 := by
      have h : (processPR env st pr).members
          = updateMember st.members (lowerStr pr.userLogin) pr.userLogin (memberFold env pr) := rfl
      rw [h, sumPRsMerged_updateMember _ _ _ _ (memberFold_prsMerged env pr)]
    rw [hstep, List.length_cons]
    omega

theorem mem_setEntry {M : List (Str × MemberMetrics)} {key : Str} {mm : MemberMetrics} :
    ∀ p ∈ setEntry M key mm, p ∈ M ∨ p.2 = mm := by
  induction M with
  | nil =>
    intro p hp
    simp [setEntry] at hp
    right; rw [hp]
  | cons hd rest ih =>
    obtain ⟨k0, v0⟩ := hd
    intro p hp
    by_cases hk : k0 = key
    · simp only [setEntry, if_pos hk, List.mem_cons] at hp
      rcases hp with hp | hp
      · right; rw [hp]
      · left; exact List.mem_cons_of_mem _ hp
    · simp only [setEntry, if_neg hk, List.mem_cons] at hp
      rcases hp with hp | hp
      · left; rw [hp]; exact List.mem_cons_self _ _
      · rcases ih p hp with h | h
        · left; exact List.mem_cons_of_mem _ h
        · right; exact h

theorem initMembers_prop (P : MemberMetrics → Prop) (hd : ∀ s, P (defaultMember s)) :
    ∀ (l : List Str) (M : List (Str × MemberMetrics)), (∀ p ∈ M, P p.2) →
      ∀ p ∈ l.foldl (fun m member => setEntry m (lowerStr member) (defaultMember member)) M,
        P p.2 := by
  intro l
  induction l with
  | nil => intro M hM p hp; exact hM p hp
  | cons s rest ih =>
    intro M hM p hp
    rw [List.foldl_cons] at hp
    refine ih _ ?_ p hp
    intro q hq
    rcases mem_setEntry q hq with h | h
    · exact hM q h
    · rw [h]; exact hd _

theorem sumPRsMerged_zero (M : List (Str × MemberMetrics))
    (h : ∀ p ∈ M, p.2.prsMerged = 0) : sumPRsMerged M = 0 := by
  induction M with
  | nil => rfl
  | cons hd rest ih =>
    simp only [sumPRsMerged, List.map_cons, List.sum_cons]
    rw [h hd (List.mem_cons_self _ _)]
    have := ih (fun p hp => h p (List.mem_cons_of_mem _ hp))
    simp only [sumPRsMerged] at this
    omega

theorem sumPRsMerged_initMembers (cfgMembers : List Str) :
    sumPRsMerged (initMembers cfgMembers) = 0 := by
  apply sumPRsMerged_zero
  intro p hp
  exact initMembers_prop (fun mm => mm.prsMerged = 0) (fun _ => rfl) cfgMembers []
    (fun q hq => absurd hq (List.not_mem_nil q)) p hp

/-- C9: the team-level `DeploymentsTotal` equals the sum of the per-member
`PRsMerged` counts: every merged PR is attributed to exactly one case-folded
member key (before the commits fetch can fail), and the configured members
start at zero. -/
theorem deploymentsTotal_eq_sum_member_prs (env : FetchEnv) (cfgMembers : List Str)
    (repo : Str) (prs : List PullRequest) (trunk : List Commit) (days : Int) :
    (calculateMetrics env cfgMembers repo prs trunk days).deploymentsTotal
      = (((calculateMetrics env cfgMembers repo prs trunk days).memberMetrics).map
          (fun p => p.2.prsMerged)).sum := by
  show prs.length = _
  have hfin : (((aggState env cfgMembers prs).members.map
        (fun p => (p.1, finalizeMember p.2))).map (fun p => p.2.prsMerged))
      = (aggState env cfgMembers prs).members.map (fun p => p.2.prsMerged) := by
    rw [List.map_map]
    apply List.map_congr_left
    intro p _
    simp [finalizeMember]
  have hsum := sumPRsMerged_fold env prs
    { members := initMembers cfgMembers, leadTimes := [], firstReviewTimes := [],
      failureCount := 0 }
  simp only [calculateMetrics]
  rw [hfin]
  have : sumPRsMerged ((aggState env cfgMembers prs).members)
      = sumPRsMerged (initMembers cfgMembers) + prs.length := hsum
  rw [sumPRsMerged_initMembers] at this
  simp only [sumPRsMerged] at this
  omega

/-- C1 (amended): `ChangeFailureRate` is non-negative and equals
`(classifier failures among PRs with fetchable commits + trunk reverts)
 / total merged PRs * 100` when the total is positive, `0` when it is `0`;
it is not bounded by 100, because the trunk revert count is not bounded by
the PR count. -/
theorem changeFailureRate_eq_formula (env : FetchEnv) (cfgMembers : List Str)
    (repo : Str) (prs : List PullRequest) (trunk : List Commit) (days : Int) :
    0 ≤ (calculateMetrics env cfgMembers repo prs trunk days).changeFailureRate ∧
    (calculateMetrics env cfgMembers repo prs trunk days).changeFailureRate =
      (if 0 < prs.length then
        ((prs.countP (failContrib env) + trunk.countP isRevertCommit : Rat)
          / (prs.length : Rat)) * 100
      else 0) := by
  have hfc : (aggState env cfgMembers prs).failureCount = prs.countP (failContrib env) := by
    have := aggFold_failureCount env prs
      { members := initMembers cfgMembers, leadTimes := [], firstReviewTimes := [],
        failureCount := 0 }
    simpa [aggState] using this
  constructor
  · simp only [calculateMetrics]
    split
    · positivity
    · exact le_refl 0
  · simp only [calculateMetrics, hfc]

/-- A merged, non-failure PR used in the C1 counterexample. -/
def plainPR : PullRequest :=
  { number := 1, title := "add feature".toList, state := "closed".toList, createdAt := 0,
    mergedAt := some 5, userLogin := "alice".toList, headRef := "feature/z".toList,
    labels := [] }

/-- Two trunk revert commits used in the C1 counterexample. -/
def twoReverts : List Commit :=
  [{ sha := "a1".toList, message := "Revert \"x\"".toList, authorDate := 1 },
   { sha := "a2".toList, message := "Revert \"y\"".toList, authorDate := 2 }]

/-- C1 counterexample: a repository with one merged PR (classified as no
failure, commits fetch succeeds) and two trunk revert commits has
`ChangeFailureRate = 200`, outside `[0,100]`. -/
theorem changeFailureRate_can_exceed_100 :
    (calculateMetrics ⟨fun _ => some [], fun _ => some []⟩ [] ("r".toList) [plainPR]
        twoReverts 1).changeFailureRate = 200 ∧
    ¬((calculateMetrics ⟨fun _ => some [], fun _ => some []⟩ [] ("r".toList) [plainPR]
        twoReverts 1).changeFailureRate ≤ 100) := by
  have hfc : (aggState ⟨fun _ => some [], fun _ => some []⟩ [] [plainPR]).failureCount = 0 := by
    decide
  have hrc : twoReverts.countP isRevertCommit = 2 := by decide
  constructor
  · simp only [calculateMetrics, hfc, hrc]
    norm_num
  · simp only [calculateMetrics, hfc, hrc]
    norm_num

/-- C2 (amended): a PR whose commits fetch fails is skipped for metric
folding — it contributes no lead-time sample, no first-review sample and no
failure classification, and every other PR is still processed and folded —
but it is still counted in the merged-PR totals (`DeploymentsTotal`,
`PRsAnalyzed`) and the run is not aborted; members other than its author
are exactly as if the PR were absent. -/
theorem commit_fetch_failure_skips_pr (env : FetchEnv) (cfgMembers : List Str) (repo : Str)
    (xs ys : List PullRequest) (pr : PullRequest) (trunk : List Commit) (days : Int)
    (h : env.commits pr.number = none) :
    (calculateMetrics env cfgMembers repo (xs ++ pr :: ys) trunk days).deploymentsTotal
      = (xs ++ ys).length + 1 ∧
    (calculateMetrics env cfgMembers repo (xs ++ pr :: ys) trunk days).prsAnalyzed
      = (xs ++ ys).length + 1 ∧
    (calculateMetrics env cfgMembers repo (xs ++ pr :: ys) trunk days).leadTimeForChanges
      = average ((xs ++ ys).filterMap (leadContrib env)) ∧
    (calculateMetrics env cfgMembers repo (xs ++ pr :: ys) trunk days).leadTimeMedian
      = median ((xs ++ ys).filterMap (leadContrib env)) ∧
    (calculateMetrics env cfgMembers repo (xs ++ pr :: ys) trunk days).timeToFirstReview
      = average ((xs ++ ys).filterMap (reviewContrib env)) ∧
    (calculateMetrics env cfgMembers repo (xs ++ pr :: ys) trunk days).timeToFirstReviewMedian
      = median ((xs ++ ys).filterMap (reviewContrib env)) ∧
    (calculateMetrics env cfgMembers repo (xs ++ pr :: ys) trunk days).failureCount
      = (xs ++ ys).countP (failContrib env) + trunk.countP isRevertCommit ∧
    (∀ key : Str, key ≠ lowerStr pr.userLogin →
      lookupM (calculateMetrics env cfgMembers repo (xs ++ pr :: ys) trunk days).memberMetrics key
        = lookupM (calculateMetrics env cfgMembers repo (xs ++ ys) trunk days).memberMetrics
            key) := by
  have hlc : leadContrib env pr = none := by simp [leadContrib, h]
  have hrc : reviewContrib env pr = none := by simp [reviewContrib, h]
  have hfcb : failContrib env pr = false := by simp [failContrib, h]
  have hlen : (xs ++ pr :: ys).length = (xs ++ ys).length + 1 := by
    simp [List.length_append]
    omega
  have hteamL : (aggState env cfgMembers (xs ++ pr :: ys)).leadTimes
      = (xs ++ ys).filterMap (leadContrib env) := by
    unfold aggState
    rw [aggFold_leadTimes]
    simp [List.filterMap_append, List.filterMap_cons, hlc]
  have hteamR : (aggState env cfgMembers (xs ++ pr :: ys)).firstReviewTimes
      = (xs ++ ys).filterMap (reviewContrib env) := by
    unfold aggState
    rw [aggFold_firstReviewTimes]
    simp [List.filterMap_append, List.filterMap_cons, hrc]
  have hteamF : (aggState env cfgMembers (xs ++ pr :: ys)).failureCount
      = (xs ++ ys).countP (failContrib env) := by
    unfold aggState
    rw [aggFold_failureCount]
    simp [List.countP_append, List.countP_cons, hfcb]
  refine ⟨?_, ?_, ?_, ?_, ?_, ?_, ?_, ?_⟩
  · simpa [calculateMetrics] using hlen
  · simpa [calculateMetrics] using hlen
  · simp only [calculateMetrics]
    rw [hteamL]
  · simp only [calculateMetrics]
    rw [hteamL]
  · simp only [calculateMetrics]
    rw [hteamR]
  · simp only [calculateMetrics]
    rw [hteamR]
  · simp only [calculateMetrics]
    rw [hteamF]
  · intro key hkey
    simp only [calculateMetrics]
    rw [lookupM_map_finalize, lookupM_map_finalize]
    have hraw : lookupM (aggState env cfgMembers (xs ++ pr :: ys)).members key
        = lookupM (aggState env cfgMembers (xs ++ ys)).members key := by
      unfold aggState
      rw [List.foldl_append, List.foldl_append, List.foldl_cons]
      apply foldl_lookup_congr
      rw [lookupM_processPR, if_neg hkey]
    rw [hraw]

/-- C2 counterexample: the commits fetch fails for the only PR, yet the PR
is counted — `PRsAnalyzed` and `DeploymentsTotal` are 1 and its author's
`PRsMerged` is 1 — contradicting "not counted as processed". -/
theorem commit_fetch_failure_still_counted :
    (calculateMetrics ⟨fun _ => none, fun _ => none⟩ [] ("r".toList) [plainPR] []
        1).prsAnalyzed = 1 ∧
    (calculateMetrics ⟨fun _ => none, fun _ => none⟩ [] ("r".toList) [plainPR] []
        1).deploymentsTotal = 1 ∧
    (lookupM (calculateMetrics ⟨fun _ => none, fun _ => none⟩ [] ("r".toList) [plainPR] []
        1).memberMetrics ("alice".toList)).map (fun mm => mm.prsMerged) = some 1 := by
  refine ⟨rfl, rfl, ?_⟩
  decide

/-- Witness for C2 at a concrete input. -/
theorem commit_fetch_failure_skips_pr_witness :
    (calculateMetrics ⟨fun _ => none, fun _ => none⟩ [] ("r".toList) ([] ++ plainPR :: [])
        [] 1).failureCount
      = ([] ++ ([] : List PullRequest)).countP (failContrib ⟨fun _ => none, fun _ => none⟩)
        + ([] : List Commit).countP isRevertCommit :=
  (commit_fetch_failure_skips_pr ⟨fun _ => none, fun _ => none⟩ [] ("r".toList) [] []
    plainPR [] 1 rfl).2.2.2.2.2.2.1

theorem firstNonAuthorReview_go (author : Str) :
    ∀ (rvs : List Review) (acc : Option Int) (t : Int),
      (rvs.foldl
        (fun acc r =>
          if lowerStr r.userLogin = lowerStr author then acc
          else

            match acc with
            | none => some r.submittedAt
            | some t0 => if r.submittedAt < t0 then some r.submittedAt else some t0)
        acc) = some t →
      (acc = some t ∨ ∃ r ∈ rvs, lowerStr r.userLogin ≠ lowerStr author ∧ r.submittedAt = t) ∧
      (∀ r ∈ rvs, lowerStr r.userLogin ≠ lowerStr author → t ≤ r.submittedAt) ∧
      (∀ t0, acc = some t0 → t ≤ t0) := by
  intro rvs
  induction rvs with
  | nil =>
    intro acc t h
    simp only [List.foldl_nil] at h
    refine ⟨Or.inl h, by simp, fun t0 h0 => ?_⟩
    rw [h] at h0
    rw [Option.some_inj.mp h0]
  | cons r rest ih =>
    intro acc t h
    rw [List.foldl_cons] at h
    by_cases hself : lowerStr r.userLogin = lowerStr author
    · rw [if_pos hself] at h
      obtain ⟨h1, h2, h3⟩ := ih acc t h
      refine ⟨?_, ?_, h3⟩
      · rcases h1 with h1 | ⟨r', hr', hcond⟩
        · exact Or.inl h1
        · exact Or.inr ⟨r', List.mem_cons_of_mem _ hr', hcond⟩
      · intro r' hr' hna
        rcases List.mem_cons.mp hr' with rfl | hr'
        · exact absurd hself hna
        · exact h2 r' hr' hna
    · rw [if_neg hself] at h
      cases acc with
      | none =>
        obtain ⟨h1, h2, h3⟩ := ih (some r.submittedAt) t h
        refine ⟨?_, ?_, ?_⟩
        · rcases h1 with h1 | ⟨r', hr', hna, hts⟩
          · exact Or.inr ⟨r, List.mem_cons_self _ _, hself, Option.some_inj.mp h1⟩
          · exact Or.inr ⟨r', List.mem_cons_of_mem _ hr', hna, hts⟩
        · intro r' hr' hna
          rcases List.mem_cons.mp hr' with rfl | hr'
          · exact h3 r'.submittedAt rfl
          · exact h2 r' hr' hna
        · intro t0 h0
          simp at h0
      | some t0 =>
        have hred : (match some t0 with
            | none => some r.submittedAt
            | some t0 => if r.submittedAt < t0 then some r.submittedAt else some t0)
            = if r.submittedAt < t0 then some r.submittedAt else some t0 := rfl
        rw [hred] at h
        by_cases hlt : r.submittedAt < t0
        · rw [if_pos hlt] at h
          obtain ⟨h1, h2, h3⟩ := ih (some r.submittedAt) t h
          have hle : t ≤ r.submittedAt := h3 r.submittedAt rfl
          refine ⟨?_, ?_, ?_⟩
          · rcases h1 with h1 | ⟨r', hr', hna, hts⟩
            · exact Or.inr ⟨r, List.mem_cons_self _ _, hself, Option.some_inj.mp h1⟩
            · exact Or.inr ⟨r', List.mem_cons_of_mem _ hr', hna, hts⟩
          · intro r' hr' hna
            rcases List.mem_cons.mp hr' with rfl | hr'
            · exact hle
            · exact h2 r' hr' hna
          · intro t1 h1'
            rw [← Option.some_inj.mp h1']
            omega
        · rw [if_neg hlt] at h
          obtain ⟨h1, h2, h3⟩ := ih (some t0) t h
          have hle : t ≤ t0 := h3 t0 rfl
          refine ⟨?_, ?_, ?_⟩
          · rcases h1 with h1 | ⟨r', hr', hna, hts⟩
            · exact Or.inl h1
            · exact Or.inr ⟨r', List.mem_cons_of_mem _ hr', hna, hts⟩
          · intro r' hr' hna
            rcases List.mem_cons.mp hr' with rfl | hr'
            · omega
            · exact h2 r' hr' hna
          · intro t1 h1'
            rw [← Option.some_inj.mp h1']
            exact hle

theorem firstNonAuthorReview_spec (author : Str) (rvs : List Review) (t : Int)
    (h : firstNonAuthorReview author rvs = some t) :
    (∃ r ∈ rvs, lowerStr r.userLogin ≠ lowerStr author ∧ r.submittedAt = t) ∧
    (∀ r ∈ rvs, lowerStr r.userLogin ≠ lowerStr author → t ≤ r.submittedAt) := by
  obtain ⟨h1, h2, -⟩ := firstNonAuthorReview_go author rvs none t h
  refine ⟨?_, h2⟩
  rcases h1 with h1 | h1
  · simp at h1
  · exact h1

theorem firstNonAuthorReview_all_self (author : Str) :
    ∀ rvs : List Review, (∀ r ∈ rvs, lowerStr r.userLogin = lowerStr author) →
      firstNonAuthorReview author rvs = none := by
  intro rvs
  induction rvs with
  | nil => intro _; rfl
  | cons r rest ih =>
    intro h
    unfold firstNonAuthorReview at ih ⊢
    rw [List.foldl_cons, if_pos (h r (List.mem_cons_self _ _))]
    exact ih (fun r' hr' => h r' (List.mem_cons_of_mem _ hr'))

/-- A valid time-to-first-review sample drawn from `prs` under `env`, as the
claim words it: the earliest submission among reviews by someone other than
the PR's author, minus the PR's creation time. -/
def IsFirstReviewSampleFor (env : FetchEnv) (prs : List PullRequest) (d : Duration) : Prop :=
  ∃ pr ∈ prs, ∃ rvs, env.reviews pr.number = some rvs ∧
    ∃ r ∈ rvs, lowerStr r.userLogin ≠ lowerStr pr.userLogin ∧
      d = r.submittedAt - pr.createdAt ∧
      ∀ r' ∈ rvs, lowerStr r'.userLogin ≠ lowerStr pr.userLogin →
        r.submittedAt ≤ r'.submittedAt

theorem reviewContrib_sample (env : FetchEnv) (prs : List PullRequest) (pr : PullRequest)
    (hmem : pr ∈ prs) (d : Duration) (h : reviewContrib env pr = some d) :
    IsFirstReviewSampleFor env prs d := by
  unfold reviewContrib at h
  cases hc : env.commits pr.number with
  | none => simp [hc] at h
  | some cs =>
    simp only [hc] at h
    cases hr : env.reviews pr.number with
    | none => simp [hr] at h
    | some rvs =>
      simp only [hr] at h
      unfold reviewSampleOf at h
      by_cases h0 : rvs.length = 0
      · simp [h0] at h
      · rw [if_neg h0] at h
        cases hf : firstNonAuthorReview pr.userLogin rvs with
        | none => simp [hf] at h
        | some t =>
          rw [hf] at h
          have hd : t - pr.createdAt = d := by
            simpa using h
          obtain ⟨⟨r, hrmem, hna, hts⟩, hmin⟩ := firstNonAuthorReview_spec _ _ _ hf
          refine ⟨pr, hmem, rvs, hr, r, hrmem, hna, ?_, ?_⟩
          · rw [← hd, hts]
          · intro r' hr' hna'
            have hle := hmin r' hr' hna'
            rw [hts]
            exact hle

theorem lookupM_mem : ∀ {M : List (Str × MemberMetrics)} {key : Str} {mm : MemberMetrics},
    lookupM M key = some mm → (key, mm) ∈ M := by
  intro M
  induction M with
  | nil => intro key mm h; simp [lookupM] at h
  | cons hd rest ih =>
    obtain ⟨k0, v0⟩ := hd
    intro key mm h
    simp only [lookupM] at h
    by_cases hk : k0 = key
    · rw [if_pos hk] at h
      subst hk
      rw [← Option.some_inj.mp h]
      exact List.mem_cons_self _ _
    · rw [if_neg hk] at h
      exact List.mem_cons_of_mem _ (ih h)

theorem members_frt_invariant (env : FetchEnv) (Q : Duration → Prop) :
    ∀ (l : List PullRequest) (st : AggState),
      (∀ pr ∈ l, ∀ d : Duration, reviewContrib env pr = some d → Q d) →
      (∀ key mm, lookupM st.members key = some mm → ∀ d ∈ mm.firstReviewTimes, Q d) →
      ∀ key mm, lookupM ((l.foldl (processPR env) st).members) key = some mm →
        ∀ d ∈ mm.firstReviewTimes, Q d := by
  intro l
  induction l with
  | nil => intro st _ hst; exact hst
  | cons pr rest ih =>
    intro st hl hst
    rw [List.foldl_cons]
    apply ih
    · intro pr' h' d hd
      exact hl pr' (List.mem_cons_of_mem _ h') d hd
    · intro key mm hkm d hd
      rw [lookupM_processPR] at hkm
      by_cases hk : key = lowerStr pr.userLogin
      · rw [if_pos hk] at hkm
        have hmm := (Option.some_inj.mp hkm).symm
        have hold : ∀ d' ∈ ((lookupM st.members (lowerStr pr.userLogin)).getD
            (defaultMember pr.userLogin)).firstReviewTimes, Q d' := by
          cases hlk : lookupM st.members (lowerStr pr.userLogin) with
          | none => simp [defaultMember, emptyMember]
          | some old =>
            simp only [hlk, Option.getD_some]
            exact hst _ old hlk
        rw [hmm] at hd
        cases hcm : env.commits pr.number with
        | none =>
          simp only [memberFold, hcm] at hd
          exact hold d hd
        | some cs =>
          simp only [memberFold, hcm] at hd
          rcases List.mem_append.mp hd with hd | hd
          · exact hold d hd
          · have hcontrib : reviewContrib env pr = some d := by
              simp only [reviewContrib, hcm]
              rcases hrv : env.reviews pr.number with _ | rvs
              · simp [hrv] at hd
              · simp only [hrv] at hd ⊢
                rcases hs : reviewSampleOf pr rvs with _ | d'
                · simp [hs] at hd
                · simp only [hs] at hd
                  simp only [Option.toList_some, List.mem_singleton] at hd
                  rw [hd]
            exact hl pr (List.mem_cons_self _ _) d hcontrib
      · rw [if_neg hk] at hkm
        exact hst key mm hkm d hd

/-- C6: every duration in the time-to-first-review collections (the
team-level pool and every member's pool) is the earliest non-author
review's submission time minus its PR's creation time (self-reviews
excluded), and a PR whose reviews are all by its own author contributes no
sample. -/
theorem firstReview_excludes_self_reviews (env : FetchEnv) (cfgMembers : List Str)
    (prs : List PullRequest) :
    (∀ d ∈ (aggState env cfgMembers prs).firstReviewTimes,
      IsFirstReviewSampleFor env prs d) ∧
    (∀ key mm, lookupM (aggState env cfgMembers prs).members key = some mm →
      ∀ d ∈ mm.firstReviewTimes, IsFirstReviewSampleFor env prs d) ∧
    (∀ pr rvs, env.reviews pr.number = some rvs →
      (∀ r ∈ rvs, lowerStr r.userLogin = lowerStr pr.userLogin) →
      reviewContrib env pr = none) := by
  refine ⟨?_, ?_, ?_⟩
  · intro d hd
    have hteam : (aggState env cfgMembers prs).firstReviewTimes
        = prs.filterMap (reviewContrib env) := by
      unfold aggState
      rw [aggFold_firstReviewTimes]
      simp
    rw [hteam] at hd
    obtain ⟨pr, hmem, hc⟩ := List.mem_filterMap.mp hd
    exact reviewContrib_sample env prs pr hmem d hc
  · apply members_frt_invariant
    · intro pr hmem d hc
      exact reviewContrib_sample env prs pr hmem d hc
    · intro key mm hkm d hd
      have hmem2 : (key, mm) ∈ initMembers cfgMembers := lookupM_mem hkm
      have : mm.firstReviewTimes = [] :=
        initMembers_prop (fun m => m.firstReviewTimes = []) (fun _ => rfl)
          cfgMembers [] (fun q hq => absurd hq (List.not_mem_nil q)) (key, mm) hmem2
      rw [this] at hd
      exact absurd hd (List.not_mem_nil d)
  · intro pr rvs hrv hall
    cases hc : env.commits pr.number with
    | none => simp [reviewContrib, hc]
    | some cs =>
      simp only [reviewContrib, hc, hrv]
      unfold reviewSampleOf
      by_cases h0 : rvs.length = 0
      · rw [if_pos h0]
      · rw [if_neg h0, firstNonAuthorReview_all_self pr.userLogin rvs hall]
        rfl

/-- One `+=`/append pass of `printSummary`'s member-combining loop
(main.go:516-519): add `mm`'s counts and pools onto the combined entry. -/
def addMember (mm old : MemberMetrics) : MemberMetrics :=
  { old with
    prsMerged := old.prsMerged + mm.prsMerged,
    failurePRs := old.failurePRs + mm.failurePRs,
    leadTimes := old.leadTimes ++ mm.leadTimes,
    firstReviewTimes := old.firstReviewTimes ++ mm.firstReviewTimes }

/-- The combined member map built by `printSummary` (main.go:502-523): for
each repository in input order, fold each of its member entries into the
combined map, creating `&MemberMetrics{Username: mm.Username}` when the key
is new. -/
def combineMembersRaw (allMetrics : List Metrics) : List (Str × MemberMetrics) :=
  allMetrics.foldl
    (fun acc m => m.memberMetrics.foldl
      (fun acc2 p => updateMember acc2 p.1 p.2.username (addMember p.2)) acc)
    []

/-- main.go:526-531: finalise each combined member once from its merged
pools. -/
def combinedMembers (allMetrics : List Metrics) : List (Str × MemberMetrics) :=
  (combineMembersRaw allMetrics).map (fun p => (p.1, finalizeMember p.2))

/-- The entries one key has across the repositories, in repository order. -/
def memberEntriesFor (ms : List Metrics) (key : Str) : List MemberMetrics :=
  ms.filterMap (fun m => lookupM m.memberMetrics key)

/-- The combined aggregate as the claim words it: sum the counts,
concatenate the per-repository pools, recompute average and median once
from the merged pool. -/
def mergedOf (es : List MemberMetrics) (u : Str) : MemberMetrics :=
  finalizeMember
    { username := u,
      prsMerged := (es.map (fun e => e.prsMerged)).sum,
      avgLeadTime := 0, medianLeadTime := 0, avgTimeToFirstReview := 0,
      medianTimeToFirstReview := 0,
      failurePRs := (es.map (fun e => e.failurePRs)).sum,
      leadTimes := (es.map (fun e => e.leadTimes)).flatten,
      firstReviewTimes := (es.map (fun e => e.firstReviewTimes)).flatten }

theorem lookupM_eq_none_of_not_mem :
    ∀ {M : List (Str × MemberMetrics)} {key : Str}, key ∉ M.map Prod.fst →
      lookupM M key = none := by
  intro M
  induction M with
  | nil => intro key _; rfl
  | cons hd rest ih =>
    obtain ⟨k0, v0⟩ := hd
    intro key h
    simp only [List.map_cons, List.mem_cons, not_or] at h
    simp only [lookupM, if_neg (fun hh : k0 = key => h.1 hh.symm)]
    exact ih h.2

theorem combineRepo_lookup :
    ∀ (entries : List (Str × MemberMetrics)), (entries.map Prod.fst).Nodup →
      ∀ (acc : List (Str × MemberMetrics)) (key : Str),
        lookupM (entries.foldl
            (fun a p => updateMember a p.1 p.2.username (addMember p.2)) acc) key
          = (match lookupM entries key with
             | none => lookupM acc key
             | some mm =>
               some (addMember mm ((lookupM acc key).getD (defaultMember mm.username)))) := by
  intro entries
  induction entries with
  | nil => intro _ acc key; rfl
  | cons hd rest ih =>
    obtain ⟨k0, mm0⟩ := hd
    intro hnd acc key
    obtain ⟨hk0nin, hndrest⟩ :=
      List.nodup_cons.mp (show (k0 :: rest.map Prod.fst).Nodup from hnd)
    rw [List.foldl_cons, ih hndrest]
    by_cases hk : k0 = key
    · subst hk
      have hrest : lookupM rest k0 = none := lookupM_eq_none_of_not_mem hk0nin
      simp only [hrest]
      rw [lookupM_updateMember, if_pos rfl]
      simp [lookupM]
    · cases hrk : lookupM rest key with
      | none =>
        simp only [hrk]
        rw [lookupM_updateMember, if_neg (Ne.symm hk)]
        simp only [lookupM, if_neg hk, hrk]
      | some mm =>
        simp only [hrk]
        rw [lookupM_updateMember, if_neg (Ne.symm hk)]
        simp only [lookupM, if_neg hk, hrk]

/-- The per-key effect of folding one repository entry into an optional
combined value. -/
def combineOne (v : Option MemberMetrics) (mm : MemberMetrics) : Option MemberMetrics :=
  some (addMember mm (v.getD (defaultMember mm.username)))

theorem combineAll_lookup :
    ∀ (ms : List Metrics), (∀ m ∈ ms, (m.memberMetrics.map Prod.fst).Nodup) →
      ∀ (acc : List (Str × MemberMetrics)) (key : Str),
        lookupM (ms.foldl
            (fun acc m => m.memberMetrics.foldl
              (fun a p => updateMember a p.1 p.2.username (addMember p.2)) acc) acc) key
          = (memberEntriesFor ms key).foldl combineOne (lookupM acc key) := by
  intro ms
  induction ms with
  | nil => intro _ acc key; rfl
  | cons m rest ih =>
    intro hnd acc key
    rw [List.foldl_cons, ih (fun m' h' => hnd m' (List.mem_cons_of_mem _ h'))]
    have hrep := combineRepo_lookup m.memberMetrics (hnd m (List.mem_cons_self _ _)) acc key
    simp only [memberEntriesFor, List.filterMap_cons]
    cases hm : lookupM m.memberMetrics key with
    | none =>
      simp only [hm] at hrep ⊢
      rw [hrep]
    | some mm =>
      simp only [hm] at hrep ⊢
      rw [hrep, List.foldl_cons]
      rfl

theorem foldl_combineOne_some :
    ∀ (es : List MemberMetrics) (v : MemberMetrics),
      es.foldl combineOne (some v)
        = some { username := v.username,
                 prsMerged := v.prsMerged + (es.map (fun e => e.prsMerged)).sum,
                 avgLeadTime := v.avgLeadTime, medianLeadTime := v.medianLeadTime,
                 avgTimeToFirstReview := v.avgTimeToFirstReview,
                 medianTimeToFirstReview := v.medianTimeToFirstReview,
                 failurePRs := v.failurePRs + (es.map (fun e => e.failurePRs)).sum,
                 leadTimes := v.leadTimes ++ (es.map (fun e => e.leadTimes)).flatten,
                 firstReviewTimes :=
                   v.firstReviewTimes ++ (es.map (fun e => e.firstReviewTimes)).flatten } := by
  intro es
  induction es with
  | nil => intro v; simp
  | cons e rest ih =>
    intro v
    rw [List.foldl_cons]
    have h1 : combineOne (some v) e = some (addMember e v) := rfl
    rw [h1, ih]
    simp [addMember, List.append_assoc, Nat.add_assoc]

/-- C3: combining N repositories merges member aggregates by normalized
handle: for every key present somewhere, the combined entry sums the PR and
failure counts, concatenates the per-repository duration pools in
repository order, and recomputes that member's average and median once from
the merged pool (username taken from the first repository having the key). -/
theorem combine_members_pooled (ms : List Metrics)
    (hnd : ∀ m ∈ ms, (m.memberMetrics.map Prod.fst).Nodup) (key : Str) :
    lookupM (combinedMembers ms) key
      = (match memberEntriesFor ms key with
         | [] => none
         | e :: es => some (mergedOf (e :: es) e.username)) := by
  unfold combinedMembers
  rw [lookupM_map_finalize]
  unfold combineMembersRaw
  rw [combineAll_lookup ms hnd [] key]
  have hnil : lookupM [] key = none := rfl
  rw [hnil]
  cases hE : memberEntriesFor ms key with
  | nil => rfl
  | cons e es =>
    rw [List.foldl_cons]
    have h1 : combineOne none e = some (addMember e (defaultMember e.username)) := rfl
    rw [h1, foldl_combineOne_some]
    rw [Option.map_some']
    unfold mergedOf
    refine congrArg some (congrArg finalizeMember ?_)
    simp [addMember, defaultMember, emptyMember]

/-- A review submitted by the PR author (differing only in letter case). -/
def selfReview : Review :=
  { id := 1, userLogin := "Alice".toList, state := "APPROVED".toList, submittedAt := 4 }

/-- Witness for C6: a PR whose only review is its author's own contributes
no time-to-first-review sample. -/
theorem firstReview_excludes_self_reviews_witness :
    reviewContrib ⟨fun _ => some [], fun _ => some [selfReview]⟩ plainPR = none :=
  (firstReview_excludes_self_reviews ⟨fun _ => some [], fun _ => some [selfReview]⟩ []
      [plainPR]).2.2 plainPR [selfReview] rfl (by decide)

/-- Contributor `alice`'s aggregate in the first repository of Scenario D: one merged PR
with lead time 1h (in nanoseconds). -/
def aliceRepo1 : MemberMetrics :=
  { username := "alice".toList, prsMerged := 1, avgLeadTime := 3600000000000,
    medianLeadTime := 3600000000000, avgTimeToFirstReview := 0,
    medianTimeToFirstReview := 0, failurePRs := 0, leadTimes := [3600000000000],
    firstReviewTimes := [] }

/-- Contributor `alice`'s aggregate in the second repository of Scenario D: one merged
PR with lead time 3h. -/
def aliceRepo2 : MemberMetrics :=
  { username := "alice".toList, prsMerged := 1, avgLeadTime := 10800000000000,
    medianLeadTime := 10800000000000, avgTimeToFirstReview := 0,
    medianTimeToFirstReview := 0, failurePRs := 0, leadTimes := [10800000000000],
    firstReviewTimes := [] }

/-- A repository snapshot whose only contributor entry is `alice`. -/
def metricsWithAlice (mm : MemberMetrics) : Metrics :=
  { repo := "r".toList, days := 1, deploymentFrequency := 1, deploymentsTotal := 1,
    leadTimeForChanges := 0, leadTimeMedian := 0, changeFailureRate := 0,
    failureCount := 0, timeToFirstReview := 0, timeToFirstReviewMedian := 0,
    prsAnalyzed := 1, memberMetrics := [("alice".toList, mm)] }

/-- Witness for C3, Scenario D: `alice` with lead times `[1h]` and `[3h]` in
two repositories combines to the pooled aggregate, whose average lead time
is `2h` — pooled, not an average of averages. -/
theorem combine_members_pooled_witness :
    lookupM (combinedMembers [metricsWithAlice aliceRepo1, metricsWithAlice aliceRepo2])
        ("alice".toList)
      = some (mergedOf [aliceRepo1, aliceRepo2] ("alice".toList)) ∧
    (lookupM (combinedMembers [metricsWithAlice aliceRepo1, metricsWithAlice aliceRepo2])
        ("alice".toList)).map (fun mm => mm.avgLeadTime) = some 7200000000000 := by
  have h := combine_members_pooled
    [metricsWithAlice aliceRepo1, metricsWithAlice aliceRepo2] (by decide) ("alice".toList)
  constructor
  · rw [h]
    decide
  · rw [h]
    decide
